import Mathlib

/-!
Verification of the bulletin-board message store (src/messages.rs, src/langs.rs).

The embedding models the per-language message repository `Arc<Mutex<Vec<Message>>>`
as a `List Message`; the mutex serializes every handler, so each endpoint becomes a
pure function from the repository value (plus its request data) to the new repository
value and an HTTP outcome.  UUIDs are modelled as naturals supplied by the caller
(`Uuid::new_v4()` is an external random source), and `DateTime<Utc>` as an integer
timestamp, with `signed_duration_since` becoming integer subtraction.  A Rust
`unwrap()` on `None` (a panic) is modelled as the `none` result of an `Option`.
-/

set_option autoImplicit false

namespace BulletinBoard

/-- Model of `uuid::Uuid`: an opaque identifier with decidable equality. -/
abbrev Uuid := Nat

/-- Model of `struct Message { id, created, content }` from src/messages.rs.
`created` models `DateTime<Utc>` as an integer timestamp. -/
structure Message where
  id : Uuid
  created : Int
  content : String
deriving DecidableEq, Repr

/-- Model of `struct EditMessage { id, content }` from src/messages.rs. -/
structure EditMessage where
  id : Uuid
  content : String
deriving DecidableEq, Repr

/-- HTTP outcome of an endpoint: `HttpResponse::Ok()` or `HttpResponse::NotFound()`. -/
inductive HttpStatus where
  | ok
  | notFound
deriving DecidableEq, Repr

/-- Model of `Iterator::position`: index of the first element satisfying `p`
(`repo.iter().position(|x| ...)` in the edit and delete endpoints). -/
def position (p : Message → Bool) : List Message → Option Nat
  | [] => none
  | x :: xs => if p x then some 0 else (position p xs).map (· + 1)

/-- Model of `$repo[index].content = c`: in-place update of the `content`
field of the element at `index`. -/
def setContent : List Message → Nat → String → List Message
  | [], _, _ => []
  | m :: rest, 0, c => { m with content := c } :: rest
  | m :: rest, n + 1, c => m :: setContent rest n c

/-- Model of `create_add_message_endpoint` (src/messages.rs lines 23-42): builds a
new `Message` from the freshly drawn uuid `id`, the current time `now` and the
request body, and pushes it onto the repository vector. -/
def add_message (repo : List Message) (id : Uuid) (now : Int) (content : String) :
    List Message :=
  repo ++ [{ id := id, created := now, content := content }]

/-- Model of `create_get_messages_endpoint` (src/messages.rs lines 52-64): returns
a clone of the repository vector. -/
def get_messages (repo : List Message) : List Message :=
  repo

/-- Model of `create_edit_message_endpoint` (src/messages.rs lines 74-89): finds the
position of the message whose id matches the body and overwrites its `content`.
The source calls `.unwrap()` on the position, so an absent id panics: that panic is
modelled as the `none` result. -/
def edit_message (repo : List Message) (body : EditMessage) : Option (List Message) :=
  match position (fun x => x.id == body.id) repo with
  | some index => some (setContent repo index body.content)
  | none => none

/-- Model of `create_delete_message_endpoint` (src/messages.rs lines 99-118): if a
message with the given id is found it is removed by index and `Ok` is returned,
otherwise the repository is untouched and `NotFound` is returned. -/
def delete_message (repo : List Message) (id : Uuid) : List Message × HttpStatus :=
  match position (fun x => x.id == id) repo with
  | some index => (repo.eraseIdx index, HttpStatus.ok)
  | none => (repo, HttpStatus.notFound)

/-- Model of `remove_old_messages` (src/messages.rs lines 128-132):
`repo.retain(|msg| now.signed_duration_since(msg.created) < max_age)`. -/
def remove_old_messages (repo : List Message) (now maxAge : Int) : List Message :=
  repo.filter (fun msg => decide (now - msg.created < maxAge))

/-- A batch of create requests, each carrying the uuid drawn by `Uuid::new_v4()`,
the `Utc::now()` timestamp and the request body.  The store mutex serializes
concurrent creates, so N concurrent requests execute as a sequence in some order;
this folds `add_message` over that sequence. -/
def run_creates (inputs : List (Uuid × Int × String)) (repo : List Message) :
    List Message :=
  inputs.foldl (fun r x => add_message r x.1 x.2.1 x.2.2) repo

end BulletinBoard

namespace BulletinBoard

/-- Model of `enum Langs` from src/langs.rs. -/
inductive Langs where
  | English
  | Spanish
  | French
  | Italian
  | Portuguese
  | German
deriving DecidableEq, Repr

/-- The six strings recognised by `Langs::from_str_internal`. -/
def langNames : List String :=
  ["English", "Spanish", "French", "Italian", "Portuguese", "German"]

/-- Model of `Langs::from_str_internal` (src/langs.rs lines 16-26). -/
def from_str_internal (s : String) : Option Langs :=
  if s = "English" then some Langs.English
  else if s = "Spanish" then some Langs.Spanish
  else if s = "French" then some Langs.French
  else if s = "Italian" then some Langs.Italian
  else if s = "Portuguese" then some Langs.Portuguese
  else if s = "German" then some Langs.German
  else none

/-- Model of `impl ToString for Langs` (src/langs.rs lines 29-41). -/
def Langs.toStr : Langs → String
  | Langs.English => "English"
  | Langs.Spanish => "Spanish"
  | Langs.French => "French"
  | Langs.Italian => "Italian"
  | Langs.Portuguese => "Portuguese"
  | Langs.German => "German"

/-- Model of `impl From<String> for Langs` (src/langs.rs lines 43-51): an unknown
string logs an error and falls back to `Langs::English`. -/
def Langs.fromString (s : String) : Langs :=
  (from_str_internal s).getD Langs.English

/-- Model of `impl FromStr for Langs` (src/langs.rs lines 53-59): an unknown string
yields `Err("Unknown language: ...")`. -/
def from_str (s : String) : Except String Langs :=
  match from_str_internal s with
  | some l => Except.ok l
  | none => Except.error ("Unknown language: " ++ s)

/-- An unknown string is mapped to `none` by `from_str_internal`, a known one to
`some`: characterisation by membership in `langNames`. -/
theorem from_str_internal_eq_none_iff (s : String) :
    from_str_internal s = none ↔ s ∉ langNames := by
  unfold from_str_internal langNames
  split_ifs with h1 h2 h3 h4 h5 h6 <;> simp_all

/-- Modelled from the spec: the `Expiration` enum belongs to a richer iteration of
this repository whose sources are not in the harvested tree (the current `Message`
struct has no `expires` field); the spec fixes its variants as
{Hour, Day, Week, Quarter, Year}. -/
inductive Expiration where
  | Hour
  | Day
  | Week
  | Quarter
  | Year
deriving DecidableEq, Repr

/-- Modelled from the spec: the pure expiry-policy table, mapping each `Expiration`
variant to its duration in seconds (Hour=3600, Day=86400, Week=604800,
Quarter=7257600, Year=31536000). -/
def expiration_seconds : Expiration → Nat
  | Expiration.Hour => 3600
  | Expiration.Day => 86400
  | Expiration.Week => 604800
  | Expiration.Quarter => 7257600
  | Expiration.Year => 31536000

end BulletinBoard

namespace BulletinBoard

/-! ### Helper lemmas about `position`, `setContent` and `eraseIdx` -/

/-- `position` returns `none` exactly when no element satisfies the predicate. -/
theorem position_eq_none_iff (p : Message → Bool) (l : List Message) :
    position p l = none ↔ ∀ x ∈ l, p x = false := by
  induction l with
  | nil => simp [position]
  | cons x xs ih =>
    by_cases hx : p x
    · simp [position, hx]
    · simp [position, hx, Option.map_eq_none', ih]

/-- A successful `position` decomposes the list around the first matching element. -/
theorem position_eq_some (p : Message → Bool) (l : List Message) (i : Nat)
    (h : position p l = some i) :
    ∃ l1 m l2, l = l1 ++ m :: l2 ∧ l1.length = i ∧ p m = true ∧
      ∀ x ∈ l1, p x = false := by
  induction l generalizing i with
  | nil => simp [position] at h
  | cons x xs ih =>
    by_cases hx : p x
    · rw [position, if_pos hx] at h
      obtain rfl : (0 : Nat) = i := Option.some.inj h
      exact ⟨[], x, xs, rfl, rfl, hx, by simp⟩
    · rw [position, if_neg hx] at h
      rcases hmap : position p xs with _ | j
      · rw [hmap] at h
        simp at h
      · rw [hmap, Option.map_some'] at h
        obtain rfl : j + 1 = i := Option.some.inj h
        obtain ⟨l1, m, l2, hdec, hlen, hm, hnone⟩ := ih j hmap
        refine ⟨x :: l1, m, l2, by simp [hdec], by simp [hlen], hm, ?_⟩
        intro y hy
        rcases List.mem_cons.mp hy with rfl | hy'
        · simpa using hx
        · exact hnone y hy'

/-- Removing the element at the length of the left part of an `append`-`cons`
decomposition removes exactly that element. -/
theorem eraseIdx_append_cons (l1 : List Message) (m : Message) (l2 : List Message) :
    (l1 ++ m :: l2).eraseIdx l1.length = l1 ++ l2 := by
  induction l1 with
  | nil => rfl
  | cons x xs ih => simpa [List.eraseIdx] using ih

/-- Overwriting the `content` field at the length of the left part of an
`append`-`cons` decomposition rewrites exactly that element. -/
theorem setContent_append_cons (l1 : List Message) (m : Message) (l2 : List Message)
    (c : String) :
    setContent (l1 ++ m :: l2) l1.length c = l1 ++ { m with content := c } :: l2 := by
  induction l1 with
  | nil => rfl
  | cons x xs ih => simpa [setContent] using ih

/-! ### Claims -/

/-- C1: for every collection of messages and every time `now`, the expiry sweep
removes exactly the messages whose age `now - created` is at least the configured
maximum age, keeps every strictly younger message (without reordering the
survivors), and in particular removes a message whose age exactly equals the
maximum age. -/
theorem sweep_removes_exactly_expired (repo : List Message) (now maxAge : Int) :
    (remove_old_messages repo now maxAge).Sublist repo ∧
    (∀ m : Message,
      m ∈ remove_old_messages repo now maxAge ↔ m ∈ repo ∧ now - m.created < maxAge) ∧
    (∀ m : Message, m ∈ repo → maxAge ≤ now - m.created →
      m ∉ remove_old_messages repo now maxAge) := by
  refine ⟨List.filter_sublist repo, ?_, ?_⟩
  · intro m
    simp [remove_old_messages, List.mem_filter]
  · intro m _ hage hmem
    have := ((List.mem_filter.mp hmem).2)
    simp only [decide_eq_true_eq] at this
    omega

/-- C1 witness: with `now = 10` and `maxAge = 10`, the message created at time `0`
has age exactly `10` and is swept, while the message created at time `5` stays. -/
theorem sweep_removes_exactly_expired_witness :
    (⟨1, 0, "old"⟩ : Message) ∉ remove_old_messages [⟨1, 0, "old"⟩, ⟨2, 5, "new"⟩] 10 10 ∧
    (⟨2, 5, "new"⟩ : Message) ∈ remove_old_messages [⟨1, 0, "old"⟩, ⟨2, 5, "new"⟩] 10 10 := by
  constructor
  · exact (sweep_removes_exactly_expired [⟨1, 0, "old"⟩, ⟨2, 5, "new"⟩] 10 10).2.2
      ⟨1, 0, "old"⟩ (by simp) (by norm_num)
  · exact ((sweep_removes_exactly_expired [⟨1, 0, "old"⟩, ⟨2, 5, "new"⟩] 10 10).2.1
      ⟨2, 5, "new"⟩).mpr ⟨by simp, by norm_num⟩

/-- C2: the edit endpoint calls `.unwrap()` on `position(..)`, so a request whose
id is absent from the store makes the handler panic (modelled as `none`) instead of
reporting not-found: here on the empty store and on a one-element store with a
different id. -/
theorem edit_absent_id_panics :
    edit_message [] { id := 7, content := "x" } = none ∧
    edit_message [⟨1, 0, "a"⟩] { id := 7, content := "x" } = none := by
  constructor <;> rfl

/-- C3: the expiry policy is a pure total function mapping each `Expiration` value
to its exact number of seconds, with `Quarter` equal to twelve weeks. -/
theorem expiration_seconds_table :
    expiration_seconds Expiration.Hour = 3600 ∧
    expiration_seconds Expiration.Day = 86400 ∧
    expiration_seconds Expiration.Week = 604800 ∧
    expiration_seconds Expiration.Quarter = 7257600 ∧
    expiration_seconds Expiration.Quarter = 12 * expiration_seconds Expiration.Week ∧
    expiration_seconds Expiration.Year = 31536000 := by
  decide

end BulletinBoard

namespace BulletinBoard

/-- C4: given the uuid drawn by `Uuid::new_v4()` (assumed fresh, as uuid
collisions are the only failure mode of the random generator) and the
`Utc::now()` timestamp taken inside the handler (which is at most the time `ret`
at which the handler returns), the create endpoint appends the new message at the
end of the collection, leaves every previously stored message unchanged, and the
stored message carries that fresh id and a `created` at most `ret`. -/
theorem create_appends_fresh (repo : List Message) (id : Uuid) (now ret : Int)
    (c : String) (hfresh : id ∉ repo.map Message.id) (hret : now ≤ ret) :
    add_message repo id now c = repo ++ [{ id := id, created := now, content := c }] ∧
    (add_message repo id now c).take repo.length = repo ∧
    ({ id := id, created := now, content := c } : Message).created ≤ ret ∧
    ({ id := id, created := now, content := c } : Message).id ∉ repo.map Message.id := by
  refine ⟨rfl, ?_, hret, hfresh⟩
  exact List.take_left repo [{ id := id, created := now, content := c }]

/-- C4 witness: creating a message with fresh id `2` at time `5` in a one-message
store appends it at the end and keeps the old message in place. -/
theorem create_appends_fresh_witness :
    add_message [⟨1, 0, "a"⟩] 2 5 "b" = [⟨1, 0, "a"⟩, ⟨2, 5, "b"⟩] ∧
    (add_message [⟨1, 0, "a"⟩] 2 5 "b").take 1 = [⟨1, 0, "a"⟩] := by
  have h := create_appends_fresh [⟨1, 0, "a"⟩] 2 5 6 "b" (by simp) (by norm_num)
  exact ⟨h.1, h.2.1⟩

/-- C5: in a store whose ids are pairwise distinct (the store invariant), deleting
an id that is present removes exactly the message carrying it and answers `Ok`, a
second delete of the same id answers `NotFound` and changes nothing, and deleting
an absent id answers `NotFound` and leaves the store exactly unchanged. -/
theorem delete_then_delete (repo : List Message) (X : Uuid)
    (hnodup : (repo.map Message.id).Nodup) :
    (X ∈ repo.map Message.id →
      (delete_message repo X).2 = HttpStatus.ok ∧
      (∃ l1 m l2, repo = l1 ++ m :: l2 ∧ m.id = X ∧
        (delete_message repo X).1 = l1 ++ l2) ∧
      delete_message (delete_message repo X).1 X =
        ((delete_message repo X).1, HttpStatus.notFound)) ∧
    (X ∉ repo.map Message.id → delete_message repo X = (repo, HttpStatus.notFound)) := by
  constructor
  · intro hmem
    obtain ⟨m0, hm0, hm0id⟩ := List.mem_map.mp hmem
    rcases hpos : position (fun x => x.id == X) repo with _ | i
    · rw [position_eq_none_iff] at hpos
      have hfalse := hpos m0 hm0
      simp [hm0id] at hfalse
    obtain ⟨l1, m, l2, hdec, hlen, hm, -⟩ :=
      position_eq_some (fun x => x.id == X) repo i hpos
    have hmx : m.id = X := by simpa using hm
    have hdel : delete_message repo X = (repo.eraseIdx i, HttpStatus.ok) := by
      unfold delete_message
      rw [hpos]
    have hfst : (delete_message repo X).1 = l1 ++ l2 := by
      rw [hdel, hdec, ← hlen]
      exact eraseIdx_append_cons l1 m l2
    have hX1 : X ∉ l1.map Message.id ∧ X ∉ l2.map Message.id := by
      rw [hdec] at hnodup
      simp only [List.map_append, List.map_cons, hmx] at hnodup
      rw [List.nodup_append] at hnodup
      obtain ⟨-, hcons, hdis⟩ := hnodup
      refine ⟨fun hx => hdis hx (List.mem_cons_self X _), ?_⟩
      exact (List.nodup_cons.mp hcons).1
    have hpos2 : position (fun x => x.id == X) (l1 ++ l2) = none := by
      rw [position_eq_none_iff]
      intro x hx
      have hxid : x.id ≠ X := by
        intro hxid
        rcases List.mem_append.mp hx with hx1 | hx2
        · exact hX1.1 (List.mem_map.mpr ⟨x, hx1, hxid⟩)
        · exact hX1.2 (List.mem_map.mpr ⟨x, hx2, hxid⟩)
      simpa using hxid
    have hdel2 : delete_message (l1 ++ l2) X = (l1 ++ l2, HttpStatus.notFound) := by
      unfold delete_message
      rw [hpos2]
    refine ⟨by rw [hdel], ⟨l1, m, l2, hdec, hmx, hfst⟩, ?_⟩
    rw [hfst, hdel2]
  · intro habs
    have hpos : position (fun x => x.id == X) repo = none := by
      rw [position_eq_none_iff]
      intro x hx
      have hxid : x.id ≠ X := fun hxid => habs (List.mem_map.mpr ⟨x, hx, hxid⟩)
      simpa using hxid
    unfold delete_message
    rw [hpos]

/-- C5 witness: deleting id `1` from a two-message store answers `Ok`, and deleting
the absent id `3` from the same store answers `NotFound` and returns the store
unchanged. -/
theorem delete_then_delete_witness :
    (delete_message [⟨1, 0, "a"⟩, ⟨2, 3, "b"⟩] 1).2 = HttpStatus.ok ∧
    delete_message [⟨1, 0, "a"⟩, ⟨2, 3, "b"⟩] 3 =
      ([⟨1, 0, "a"⟩, ⟨2, 3, "b"⟩], HttpStatus.notFound) := by
  have h1 := delete_then_delete [⟨1, 0, "a"⟩, ⟨2, 3, "b"⟩] 1 (by simp)
  have h3 := delete_then_delete [⟨1, 0, "a"⟩, ⟨2, 3, "b"⟩] 3 (by simp)
  exact ⟨(h1.1 (by simp)).1, h3.2 (by simp)⟩

/-- C6: in a store whose ids are pairwise distinct, editing an id that is present
replaces exactly the `content` field of the message carrying it and nothing else:
the result maps each stored message to itself except the matching one, whose `id`
and `created` are copied unchanged while `content` becomes the request body. -/
theorem edit_changes_only_content (repo : List Message) (body : EditMessage)
    (hnodup : (repo.map Message.id).Nodup) (hmem : body.id ∈ repo.map Message.id) :
    edit_message repo body =
      some (repo.map (fun m =>
        if m.id = body.id then
          { id := m.id, created := m.created, content := body.content }
        else m)) := by
  obtain ⟨m0, hm0, hm0id⟩ := List.mem_map.mp hmem
  rcases hpos : position (fun x => x.id == body.id) repo with _ | i
  · rw [position_eq_none_iff] at hpos
    have hfalse := hpos m0 hm0
    simp [hm0id] at hfalse
  obtain ⟨l1, m, l2, hdec, hlen, hm, -⟩ :=
    position_eq_some (fun x => x.id == body.id) repo i hpos
  have hmx : m.id = body.id := by simpa using hm
  have hedit : edit_message repo body = some (setContent repo i body.content) := by
    unfold edit_message
    rw [hpos]
  have hX1 : body.id ∉ l1.map Message.id ∧ body.id ∉ l2.map Message.id := by
    rw [hdec] at hnodup
    simp only [List.map_append, List.map_cons, hmx] at hnodup
    rw [List.nodup_append] at hnodup
    obtain ⟨-, hcons, hdis⟩ := hnodup
    refine ⟨fun hx => hdis hx (List.mem_cons_self body.id _), ?_⟩
    exact (List.nodup_cons.mp hcons).1
  have hid1 : ∀ x ∈ l1, x.id ≠ body.id :=
    fun x hx hxid => hX1.1 (List.mem_map.mpr ⟨x, hx, hxid⟩)
  have hid2 : ∀ x ∈ l2, x.id ≠ body.id :=
    fun x hx hxid => hX1.2 (List.mem_map.mpr ⟨x, hx, hxid⟩)
  rw [hedit, hdec, ← hlen, setContent_append_cons]
  congr 1
  rw [List.map_append, List.map_cons]
  congr 1
  · rw [List.map_congr_left fun x hx => if_neg (hid1 x hx)]
    exact (List.map_id l1).symm
  · congr 1
    · rw [if_pos hmx]
    · rw [List.map_congr_left fun x hx => if_neg (hid2 x hx)]
      exact (List.map_id l2).symm

/-- C6 witness: editing id `2` in a two-message store rewrites only that message's
content and keeps its id and created timestamp and the other message intact. -/
theorem edit_changes_only_content_witness :
    edit_message [⟨1, 0, "a"⟩, ⟨2, 3, "b"⟩] { id := 2, content := "z" } =
      some [⟨1, 0, "a"⟩, ⟨2, 3, "z"⟩] := by
  have h := edit_changes_only_content [⟨1, 0, "a"⟩, ⟨2, 3, "b"⟩]
    { id := 2, content := "z" } (by simp) (by simp)
  simpa using h

end BulletinBoard

namespace BulletinBoard

/-- C7: every operation preserves insertion order: create appends at the end
(leaving the old collection as a prefix), delete and the expiry sweep only remove
elements (the survivors form a sublist, hence keep their relative order), and the
read endpoint returns the collection exactly as stored. -/
theorem operations_preserve_order (repo : List Message) (id X : Uuid)
    (now maxAge t : Int) (c : String) :
    repo.Sublist (add_message repo id t c) ∧
    (add_message repo id t c).take repo.length = repo ∧
    (delete_message repo X).1.Sublist repo ∧
    (remove_old_messages repo now maxAge).Sublist repo ∧
    get_messages repo = repo := by
  refine ⟨List.sublist_append_left repo _, List.take_left repo _, ?_,
    List.filter_sublist repo, rfl⟩
  unfold delete_message
  rcases position (fun x => x.id == X) repo with _ | i
  · exact List.Sublist.refl repo
  · exact List.eraseIdx_sublist repo i

/-- C8 counterexample: the claim fails on `impl From<String> for Langs` — the
string "Klingon" is not one of the six language names, yet the conversion silently
substitutes the default `Langs::English` instead of signalling an error. -/
theorem fromString_defaults_counterexample :
    "Klingon" ∉ langNames ∧ Langs.fromString "Klingon" = Langs.English := by
  constructor
  · simp [langNames]
  · rfl

/-- C8 (amended): the `FromStr` conversion rejects every string that is not one of
the six language names with an error, but the `From<String>` conversion does not
reject: it substitutes the default `Langs::English` (after logging). -/
theorem langs_conversion_behavior (s : String) (h : s ∉ langNames) :
    from_str s = Except.error ("Unknown language: " ++ s) ∧
    Langs.fromString s = Langs.English := by
  have hnone : from_str_internal s = none := (from_str_internal_eq_none_iff s).mpr h
  constructor
  · unfold from_str
    rw [hnone]
  · unfold Langs.fromString
    rw [hnone]
    rfl

/-- C8 witness: the unknown string "Esperanto" is rejected by `FromStr` and
defaulted to English by `From<String>`. -/
theorem langs_conversion_behavior_witness :
    from_str "Esperanto" = Except.error "Unknown language: Esperanto" ∧
    Langs.fromString "Esperanto" = Langs.English := by
  have h := langs_conversion_behavior "Esperanto" (by simp [langNames])
  simpa using h

/-- Folding the create endpoint over a batch of requests appends the corresponding
messages in order. -/
theorem run_creates_eq (inputs : List (Uuid × Int × String)) (repo : List Message) :
    run_creates inputs repo =
      repo ++ inputs.map (fun x => { id := x.1, created := x.2.1, content := x.2.2 }) := by
  induction inputs generalizing repo with
  | nil => simp [run_creates]
  | cons x xs ih =>
    simp only [run_creates, List.foldl_cons] at ih ⊢
    rw [ih]
    simp [add_message]

/-- C9: the store mutex serializes concurrent creates, so N concurrent creates
against the empty store execute as N sequential creates in some order; provided
the N drawn uuids are pairwise distinct (the only failure mode of `Uuid::new_v4()`
is a random collision), the final store holds exactly N messages carrying N
pairwise distinct ids — no lost updates, no duplicate ids. -/
theorem concurrent_creates_no_loss (inputs : List (Uuid × Int × String))
    (hids : (inputs.map Prod.fst).Nodup) :
    (run_creates inputs []).length = inputs.length ∧
    ((run_creates inputs []).map Message.id).Nodup := by
  rw [run_creates_eq inputs []]
  constructor
  · simp
  · simp only [List.nil_append, List.map_map]
    have hcomp : (Message.id ∘ fun x : Uuid × Int × String =>
        ({ id := x.1, created := x.2.1, content := x.2.2 } : Message)) = Prod.fst := rfl
    rw [hcomp]
    exact hids

/-- C9 witness: two serialized creates with distinct uuids `1` and `2` leave
exactly two messages with distinct ids in the initially empty store. -/
theorem concurrent_creates_no_loss_witness :
    (run_creates [(1, 0, "a"), (2, 0, "b")] []).length = 2 ∧
    ((run_creates [(1, 0, "a"), (2, 0, "b")] []).map Message.id).Nodup := by
  have h := concurrent_creates_no_loss [(1, 0, "a"), (2, 0, "b")] (by simp)
  simpa using h

/-- C10: parsing the string produced by `to_string` with `from_str` yields back the
language (round-trip), and `from_str` succeeds exactly on the six language names —
every other string is an error. -/
theorem langs_roundtrip_and_errors :
    (∀ L : Langs, from_str (Langs.toStr L) = Except.ok L) ∧
    (∀ s : String, (∃ L : Langs, from_str s = Except.ok L) ↔ s ∈ langNames) := by
  constructor
  · intro L
    cases L <;> rfl
  · intro s
    rcases hint : from_str_internal s with _ | l
    · have hnot : s ∉ langNames := (from_str_internal_eq_none_iff s).mp hint
      constructor
      · rintro ⟨L, hL⟩
        rw [from_str, hint] at hL
        exact absurd hL (by simp)
      · intro hs
        exact absurd hs hnot
    · have hmem : s ∈ langNames := by
        by_contra hnot
        rw [← from_str_internal_eq_none_iff] at hnot
        rw [hint] at hnot
        exact absurd hnot (by simp)
      refine ⟨fun _ => hmem, fun _ => ⟨l, ?_⟩⟩
      rw [from_str, hint]

end BulletinBoard
